import Mathlib

/-!
Verification of the dictation pipeline (sherpa-onnx dictation in C).

The development shallowly embeds, at the byte level, the pure fragments of
the two variants of `dictate.c` (the uinput/xkbcommon variant and the
X11/XTest variant) together with `typer.c`:

* the garbage filter `is_garbage` of both variants,
* the trailing voice-command matcher `match_trailing_command` and the
  command table `g_commands`,
* the post-processing performed by `transcription_worker` on a recognition
  result,
* the bounded drop-oldest ring buffer `SegmentQueue` (`queue_push` /
  `queue_pop`),
* the layout lookup `lookup_char` and the event emission of
  `type_codepoint` / `typer_type` over an abstract compiled keymap,
* the XTest injection `type_text` of the X11 variant.

Strings are modelled as lists of bytes (`List Nat`), matching the C code,
which operates on `unsigned char`.
-/

namespace Dictate

/-- Byte list of an ASCII string literal (each char's codepoint). -/
def str (s : String) : List Nat := s.data.map Char.toNat

/-- C `isspace` in the default locale, on a byte. -/
def isspace (c : Nat) : Bool := c == 32 || (9 ≤ c && c ≤ 13)

/-- C `isalnum` in the default locale, on a byte. -/
def isalnum (c : Nat) : Bool :=
  (48 ≤ c && c ≤ 57) || (65 ≤ c && c ≤ 90) || (97 ≤ c && c ≤ 122)

/-- C `tolower` in the default locale, on a byte. -/
def tolower (c : Nat) : Nat := if 65 ≤ c && c ≤ 90 then c + 32 else c

/-- The region of the text scanned by `is_garbage`: leading whitespace is
skipped, and trailing whitespace is excluded from the scanned length. -/
def trimmed (t : List Nat) : List Nat :=
  ((t.dropWhile isspace).reverse.dropWhile isspace).reverse

/-- Garbage filter of the uinput variant (`part_000`, `is_garbage`):
a byte `>= 0xC0` (a UTF-8 lead byte) also counts as alphanumeric. -/
def is_garbage_uinput (t : List Nat) : Bool :=
  let s := trimmed t
  if s.isEmpty then true
  else
    let has_alnum := s.any (fun c => isalnum c || 0xC0 ≤ c)
    let unique := s.dedup.length
    if unique ≤ 2 && !has_alnum then true
    else if s.length < 3 && !has_alnum then true
    else false

/-- Garbage filter of the X11 variant (`part_001`, `is_garbage`):
only ASCII alphanumeric bytes count. -/
def is_garbage_x11 (t : List Nat) : Bool :=
  let s := trimmed t
  if s.isEmpty then true
  else
    let has_alnum := s.any isalnum
    let unique := s.dedup.length
    if unique ≤ 2 && !has_alnum then true
    else if s.length < 3 && !has_alnum then true
    else false

/-- The rejection predicate exactly as the specification words it: reject
when the trimmed text is empty, OR the number of distinct characters
is ≤ 2 and no character is alphanumeric, OR the trimmed length is < 3
and no character is alphanumeric. -/
def garbage_claim (t : List Nat) : Bool :=
  let s := trimmed t
  s.isEmpty ||
    (s.dedup.length ≤ 2 && s.all (fun c => !isalnum c)) ||
    (s.length < 3 && s.all (fun c => !isalnum c))

/-- The specification predicate amended for the uinput variant: a byte
`>= 0xC0` also counts as alphanumeric. -/
def garbage_claim_uinput (t : List Nat) : Bool :=
  let s := trimmed t
  s.isEmpty ||
    (s.dedup.length ≤ 2 && s.all (fun c => !(isalnum c || 0xC0 ≤ c))) ||
    (s.length < 3 && s.all (fun c => !(isalnum c || 0xC0 ≤ c)))

theorem garbage_x11_eq_claim (t : List Nat) : is_garbage_x11 t = garbage_claim t := by
  unfold is_garbage_x11 garbage_claim
  cases hemp : (trimmed t).isEmpty with
  | true => simp [hemp]
  | false =>
    simp only [hemp, Bool.false_or, if_false]
    have hall : (trimmed t).all (fun c => !isalnum c) = !(trimmed t).any isalnum := by
      simp [List.all_eq_not_any_not]
    rw [hall]
    cases (trimmed t).any isalnum <;>
      cases h2 : decide ((trimmed t).dedup.length ≤ 2) <;>
      cases h3 : decide ((trimmed t).length < 3) <;> simp [h2, h3]

theorem garbage_uinput_eq_claim (t : List Nat) :
    is_garbage_uinput t = garbage_claim_uinput t := by
  unfold is_garbage_uinput garbage_claim_uinput
  cases hemp : (trimmed t).isEmpty with
  | true => simp [hemp]
  | false =>
    simp only [hemp, Bool.false_or, if_false]
    have hall : (trimmed t).all (fun c => !(isalnum c || 0xC0 ≤ c))
        = !(trimmed t).any (fun c => isalnum c || decide (0xC0 ≤ c)) := by
      simp [List.all_eq_not_any_not]
    rw [hall]
    cases (trimmed t).any (fun c => isalnum c || decide (0xC0 ≤ c)) <;>
      cases h2 : decide ((trimmed t).dedup.length ≤ 2) <;>
      cases h3 : decide ((trimmed t).length < 3) <;> simp [h2, h3]

example : is_garbage_uinput (str "") = true := by decide
example : is_garbage_uinput (str "...") = true := by decide
example : is_garbage_uinput (str "ok") = false := by decide
example : is_garbage_uinput (str "xyz") = false := by decide
example : is_garbage_x11 (str "...") = true := by decide
example : is_garbage_uinput [0xC3, 0xA9] = false := by decide
example : garbage_claim [0xC3, 0xA9] = true := by decide

/-! ### Right-trim loops

The C code trims trailing characters by decrementing a length while the
last retained byte satisfies a predicate (`while (len > 0 && p(text[len-1]))
len--`).  `rtrimLenGo t p n` is that loop started at length `n`. -/

def rtrimLenGo (t : List Nat) (p : Nat → Bool) : Nat → Nat
  | 0 => 0
  | n + 1 => if p (t.getD n 0) then rtrimLenGo t p n else n + 1

/-- Resulting length of the C right-trim loop started at `t.length`. -/
def rtrimLen (t : List Nat) (p : Nat → Bool) : Nat := rtrimLenGo t p t.length

/-- Declarative right-trim: drop the longest suffix of bytes satisfying `p`. -/
def rtrimBy (t : List Nat) (p : Nat → Bool) : List Nat :=
  (t.reverse.dropWhile p).reverse

theorem rtrimLenGo_le (t : List Nat) (p : Nat → Bool) (n : Nat) :
    rtrimLenGo t p n ≤ n := by
  induction n with
  | zero => simp [rtrimLenGo]
  | succ n ih =>
    unfold rtrimLenGo
    split
    · exact Nat.le_succ_of_le ih
    · exact Nat.le_refl _

theorem rtrimLen_le (t : List Nat) (p : Nat → Bool) : rtrimLen t p ≤ t.length :=
  rtrimLenGo_le t p t.length

theorem rtrimLenGo_append (t : List Nat) (a : Nat) (p : Nat → Bool) (n : Nat)
    (h : n ≤ t.length) : rtrimLenGo (t ++ [a]) p n = rtrimLenGo t p n := by
  induction n with
  | zero => rfl
  | succ n ih =>
    unfold rtrimLenGo
    rw [List.getD_append t [a] 0 n (by omega), ih (by omega)]

theorem take_rtrimLen_eq_rtrimBy (t : List Nat) (p : Nat → Bool) :
    t.take (rtrimLen t p) = rtrimBy t p := by
  induction t using List.reverseRecOn with
  | nil => rfl
  | append_singleton t a ih =>
    show (t ++ [a]).take (rtrimLenGo (t ++ [a]) p (t ++ [a]).length) = rtrimBy (t ++ [a]) p
    rw [List.length_append, List.length_singleton]
    unfold rtrimLenGo
    have hget : (t ++ [a]).getD t.length 0 = a := by
      rw [List.getD_append_right t [a] 0 t.length (Nat.le_refl _)]
      simp [List.getD]
    rw [hget]
    unfold rtrimBy
    by_cases hp : p a
    · rw [if_pos hp, rtrimLenGo_append t a p t.length (Nat.le_refl _)]
      show (t ++ [a]).take (rtrimLen t p) = _
      rw [List.take_append_of_le_length (rtrimLen_le t p)]
      rw [List.reverse_append]
      simp only [List.reverse_singleton, List.singleton_append, List.dropWhile_cons, hp,
        if_pos]
      exact ih
    · rw [if_neg hp]
      rw [List.take_of_length_le (by simp)]
      rw [List.reverse_append]
      simp only [List.reverse_singleton, List.singleton_append, List.dropWhile_cons, hp]
      simp

/-! ### Voice commands (`g_commands`, `match_trailing_command`) -/

/-- One entry of the static voice-command table: a lowercase trailing
phrase, the Linux evdev keycode to press, whether Ctrl is held, and a
log label. -/
structure VoiceCommand where
  phrase : List Nat
  keycode : Nat
  ctrl : Bool
  label : String
deriving DecidableEq

/-- `{ "press enter", KEY_ENTER, 0, "Enter" }` (KEY_ENTER = 28). -/
def cmdEnter : VoiceCommand := ⟨str "press enter", 28, false, "Enter"⟩

/-- `{ "press tab", KEY_TAB, 0, "Tab" }` (KEY_TAB = 15). -/
def cmdTab : VoiceCommand := ⟨str "press tab", 15, false, "Tab"⟩

/-- `{ "interrupt it", KEY_C, 1, "Ctrl+C" }` (KEY_C = 46). -/
def cmdInterrupt : VoiceCommand := ⟨str "interrupt it", 46, true, "Ctrl+C"⟩

/-- `{ "cancel it", KEY_C, 1, "Ctrl+C" }` (KEY_C = 46). -/
def cmdCancel : VoiceCommand := ⟨str "cancel it", 46, true, "Ctrl+C"⟩

/-- The static command table, in source order. -/
def g_commands : List VoiceCommand := [cmdEnter, cmdTab, cmdInterrupt, cmdCancel]

/-- Does `c` match as a trailing command of `t`?  The phrase must fit, the
case-folded suffix must equal the phrase, and the suffix must start the
string or be preceded by a space (byte 32). -/
def cmdMatches (t : List Nat) (c : VoiceCommand) : Bool :=
  c.phrase.length ≤ t.length &&
    (t.drop (t.length - c.phrase.length)).map tolower == c.phrase &&
    (t.length == c.phrase.length || t.getD (t.length - c.phrase.length - 1) 0 == 32)

/-- `match_trailing_command` from the source: first matching entry in
table order, together with the index where the phrase begins. -/
def match_trailing_command (t : List Nat) : Option (VoiceCommand × Nat) :=
  (g_commands.find? (fun c => cmdMatches t c)).map
    (fun c => (c, t.length - c.phrase.length))

/-- The matcher as the specification words it: among the configured
phrases that are case-insensitive whole-word suffixes of the text, the
one of greatest length. -/
def specLongestMatch (t : List Nat) : Option (VoiceCommand × Nat) :=
  ((g_commands.filter (fun c => cmdMatches t c)).foldl
      (fun acc c =>
        match acc with
        | none => some c
        | some b => if b.phrase.length < c.phrase.length then some c else some b)
      none).map
    (fun c => (c, t.length - c.phrase.length))

theorem cmdMatches_drop (t : List Nat) (c : VoiceCommand)
    (h : cmdMatches t c = true) :
    c.phrase.length ≤ t.length ∧
      c.phrase = (t.map tolower).drop (t.length - c.phrase.length) := by
  unfold cmdMatches at h
  simp only [Bool.and_eq_true, decide_eq_true_eq, beq_iff_eq, Bool.or_eq_true] at h
  obtain ⟨⟨hle, heq⟩, _⟩ := h
  refine ⟨hle, ?_⟩
  conv_lhs => rw [← heq]
  exact List.map_drop tolower t (t.length - c.phrase.length)

theorem matches_phrase_drop (t : List Nat) (c c' : VoiceCommand)
    (h : cmdMatches t c = true) (h' : cmdMatches t c' = true)
    (hl : c.phrase.length ≤ c'.phrase.length) :
    c.phrase = c'.phrase.drop (c'.phrase.length - c.phrase.length) := by
  obtain ⟨hle, heq⟩ := cmdMatches_drop t c h
  obtain ⟨hle', heq'⟩ := cmdMatches_drop t c' h'
  calc c.phrase = (t.map tolower).drop (t.length - c.phrase.length) := heq
    _ = ((t.map tolower).drop (t.length - c'.phrase.length)).drop
          (c'.phrase.length - c.phrase.length) := by
        rw [List.drop_drop]
        congr 1
        omega
    _ = c'.phrase.drop (c'.phrase.length - c.phrase.length) := by rw [← heq']

theorem matches_unique (t : List Nat) (c c' : VoiceCommand)
    (hc : c ∈ g_commands) (hc' : c' ∈ g_commands)
    (h : cmdMatches t c = true) (h' : cmdMatches t c' = true) : c = c' := by
  have key : ∀ a b : VoiceCommand, a ∈ g_commands → b ∈ g_commands →
      a.phrase.length ≤ b.phrase.length →
      a.phrase = b.phrase.drop (b.phrase.length - a.phrase.length) → a = b := by
    intro a b ha hb hlen hdrop
    simp only [g_commands, List.mem_cons, List.mem_singleton, List.not_mem_nil,
      or_false] at ha hb
    rcases ha with rfl | rfl | rfl | rfl <;> rcases hb with rfl | rfl | rfl | rfl <;>
      first
        | rfl
        | (exfalso; revert hdrop; revert hlen; decide)
  rcases Nat.le_total c.phrase.length c'.phrase.length with hl | hl
  · exact key c c' hc hc' hl (matches_phrase_drop t c c' h h' hl)
  · exact (key c' c hc' hc hl (matches_phrase_drop t c' c h' h hl)).symm

theorem match_trailing_eq_longest (t : List Nat) :
    match_trailing_command t = specLongestMatch t := by
  have huniq := matches_unique t
  unfold match_trailing_command specLongestMatch
  cases h1 : cmdMatches t cmdEnter <;> cases h2 : cmdMatches t cmdTab <;>
    cases h3 : cmdMatches t cmdInterrupt <;> cases h4 : cmdMatches t cmdCancel <;>
    simp only [g_commands, List.find?, List.filter, h1, h2, h3, h4, List.foldl,
      Option.map_some, Option.map_none] <;>
    first
      | rfl
      | (exfalso;
         first
          | exact absurd (huniq cmdEnter cmdTab (by decide) (by decide) h1 h2) (by decide)
          | exact absurd (huniq cmdEnter cmdInterrupt (by decide) (by decide) h1 h3)
              (by decide)
          | exact absurd (huniq cmdEnter cmdCancel (by decide) (by decide) h1 h4)
              (by decide)
          | exact absurd (huniq cmdTab cmdInterrupt (by decide) (by decide) h2 h3)
              (by decide)
          | exact absurd (huniq cmdTab cmdCancel (by decide) (by decide) h2 h4)
              (by decide)
          | exact absurd (huniq cmdInterrupt cmdCancel (by decide) (by decide) h3 h4)
              (by decide))

example : match_trailing_command (str "please press enter") = some (cmdEnter, 7) := by
  decide
example : match_trailing_command (str "press enter now") = none := by decide
example : match_trailing_command (str "cancel it") = some (cmdCancel, 0) := by decide

/-! ### Transcription worker post-processing

`transcription_worker` (uinput variant), on a recognition result that
passes the garbage filter: skip leading whitespace, shrink the length
past trailing whitespace and `. , ! ?`, look for a trailing voice
command, strip trailing spaces before it, and type the remaining prefix
with a single space appended, then fire the command's key action. -/

/-- Trailing bytes removed by the worker's second trim: whitespace or
one of `.`, `,`, `!`, `?`. -/
def isTrailJunk (c : Nat) : Bool := isspace c || c == 46 || c == 44 || c == 33 || c == 63

/-- The worker's post-processing, with the C loops embedded as
`rtrimLen` index computations: returns the typed text (if any) and the
matched command (if any). -/
def worker_step (r : List Nat) : Option (List Nat) × Option VoiceCommand :=
  if is_garbage_uinput r then (none, none)
  else
    let text := r.dropWhile isspace
    let tlen := rtrimLen text isTrailJunk
    match match_trailing_command (text.take tlen) with
    | some (cmd, cstart) =>
      let text_len := rtrimLenGo text (fun c => c == 32) cstart
      ((if 0 < text_len then some (text.take text_len ++ [32]) else none), some cmd)
    | none =>
      let text_len := rtrimLenGo text (fun c => c == 32) tlen
      ((if 0 < text_len then some (text.take text_len ++ [32]) else none), none)

/-- The same post-processing as the specification words it, stage by
stage with declarative trims. -/
def pipeline_spec (r : List Nat) : Option (List Nat) × Option VoiceCommand :=
  if is_garbage_uinput r then (none, none)
  else
    let t1 := r.dropWhile isspace
    let t2 := rtrimBy t1 isTrailJunk
    match match_trailing_command t2 with
    | some (cmd, cstart) =>
      let typed := rtrimBy (t2.take cstart) (fun c => c == 32)
      ((if typed ≠ [] then some (typed ++ [32]) else none), some cmd)
    | none =>
      let typed := rtrimBy t2 (fun c => c == 32)
      ((if typed ≠ [] then some (typed ++ [32]) else none), none)

theorem rtrimLenGo_take (t : List Nat) (p : Nat → Bool) (n : Nat)
    (h : n ≤ t.length) : rtrimLenGo t p n = rtrimLen (t.take n) p := by
  unfold rtrimLen
  rw [List.length_take, Nat.min_eq_left h]
  suffices hgen : ∀ m, m ≤ n → rtrimLenGo t p m = rtrimLenGo (t.take n) p m from
    hgen n (Nat.le_refl n)
  intro m hm
  induction m with
  | zero => rfl
  | succ m ih =>
    unfold rtrimLenGo
    have hget : (t.take n).getD m 0 = t.getD m 0 := by
      unfold List.getD
      rw [List.get?_eq_getElem?, List.get?_eq_getElem?, List.getElem?_take_of_lt (by omega)]
    rw [hget, ih (by omega)]

theorem take_rtrimLenGo (t : List Nat) (p : Nat → Bool) (n : Nat)
    (h : n ≤ t.length) :
    t.take (rtrimLenGo t p n) = rtrimBy (t.take n) p := by
  rw [rtrimLenGo_take t p n h, ← take_rtrimLen_eq_rtrimBy]
  rw [List.take_take]
  congr 1
  have hle : rtrimLen (t.take n) p ≤ n :=
    le_trans (rtrimLen_le _ _) (by rw [List.length_take]; exact Nat.min_le_left _ _)
  exact (Nat.min_eq_left hle).symm

theorem typed_branch_eq (text : List Nat) (n : Nat) (h : n ≤ text.length) :
    (if 0 < rtrimLenGo text (fun c => c == 32) n
      then some (text.take (rtrimLenGo text (fun c => c == 32) n) ++ [32]) else none)
    = (if rtrimBy (text.take n) (fun c => c == 32) ≠ []
      then some (rtrimBy (text.take n) (fun c => c == 32) ++ [32]) else none) := by
  have h2 := take_rtrimLenGo text (fun c => c == 32) n h
  have h1 := rtrimLenGo_take text (fun c => c == 32) n h
  have hm_le : rtrimLenGo text (fun c => c == 32) n ≤ text.length := by
    rw [h1]
    exact le_trans (rtrimLen_le _ _) (by rw [List.length_take]; exact Nat.min_le_right _ _)
  rw [← h2]
  have hcond : (text.take (rtrimLenGo text (fun c => c == 32) n) ≠ [])
      ↔ 0 < rtrimLenGo text (fun c => c == 32) n := by
    rw [← List.length_pos, List.length_take, Nat.min_eq_left hm_le]
  by_cases hpos : 0 < rtrimLenGo text (fun c => c == 32) n
  · rw [if_pos hpos, if_pos (hcond.mpr hpos)]
  · rw [if_neg hpos, if_neg (fun hne => hpos (hcond.mp hne))]

theorem match_trailing_start_le (t : List Nat) (cmd : VoiceCommand) (s : Nat)
    (h : match_trailing_command t = some (cmd, s)) : s ≤ t.length := by
  unfold match_trailing_command at h
  cases hf : g_commands.find? (fun c => cmdMatches t c) with
  | none => rw [hf] at h; simp at h
  | some c =>
    rw [hf] at h
    simp only [Option.map_some', Option.some_inj] at h
    injection h with h1 h2
    omega

theorem worker_step_eq_pipeline (r : List Nat) : worker_step r = pipeline_spec r := by
  by_cases hg : is_garbage_uinput r = true
  · unfold worker_step pipeline_spec
    rw [if_pos hg, if_pos hg]
  · simp only [worker_step, pipeline_spec, if_neg hg]
    rw [← take_rtrimLen_eq_rtrimBy (r.dropWhile isspace) isTrailJunk]
    have htlen_le : rtrimLen (r.dropWhile isspace) isTrailJunk
        ≤ (r.dropWhile isspace).length := rtrimLen_le _ _
    cases hm : match_trailing_command
        ((r.dropWhile isspace).take (rtrimLen (r.dropWhile isspace) isTrailJunk)) with
    | none =>
      simp only []
      rw [typed_branch_eq _ _ htlen_le]
    | some pr =>
      obtain ⟨cmd, cstart⟩ := pr
      simp only []
      have hcle : cstart ≤ rtrimLen (r.dropWhile isspace) isTrailJunk := by
        have := match_trailing_start_le _ _ _ hm
        rw [List.length_take] at this
        exact le_trans this (Nat.min_le_left _ _)
      have htt : ((r.dropWhile isspace).take
            (rtrimLen (r.dropWhile isspace) isTrailJunk)).take cstart
          = (r.dropWhile isspace).take cstart := by
        rw [List.take_take, Nat.min_eq_left hcle]
      rw [htt, typed_branch_eq _ _ (hcle.trans htlen_le)]

example : worker_step (str "hello world.") = (some (str "hello world "), none) := by
  decide
example : worker_step (str "cancel it") = (none, some cmdCancel) := by decide
example : worker_step (str "please press enter") = (some (str "please "), some cmdEnter) := by
  decide

/-! ### SegmentQueue: bounded drop-oldest ring buffer

`MAX_QUEUE_SIZE = 5`.  `queue_push` never blocks: on a full queue it
first frees and advances past the oldest slot, then stores at `tail`.
`queue_pop` (once a segment is available) takes the slot at `head`.
Segments are identified by the `Nat` stored in the slot; freeing a
segment is modelled by it no longer being reachable from the queue. -/

/-- The ring-buffer state of `SegmentQueue`: the five `items` slots (as a
total map from slot index), `head`, `tail` and `count`.  The mutex and
condition variable guard the state but do not change it. -/
structure SegQ where
  items : Nat → Nat
  head : Nat
  tail : Nat
  count : Nat

/-- Queue state after `queue_init` (`memset` to zero). -/
def queue_init : SegQ := ⟨fun _ => 0, 0, 0, 0⟩

/-- `queue_push`: on a full queue the oldest slot is freed and `head`
advanced (drop-oldest) before the new segment is stored at `tail`; in
both cases the new segment lands in slot `tail`, `tail` advances, and
the net count is `count + 1` capped at 5. -/
def queue_push (q : SegQ) (x : Nat) : SegQ :=
  if q.count = 5 then
    { items := fun i => if i = q.tail then x else q.items i,
      head := (q.head + 1) % 5,
      tail := (q.tail + 1) % 5,
      count := 5 }
  else
    { items := fun i => if i = q.tail then x else q.items i,
      head := q.head,
      tail := (q.tail + 1) % 5,
      count := q.count + 1 }

/-- `queue_pop` once an item is available: `none` models the
timeout/shutdown return `0`. -/
def queue_pop (q : SegQ) : Option (Nat × SegQ) :=
  if q.count = 0 then none
  else some (q.items q.head, { q with head := (q.head + 1) % 5, count := q.count - 1 })

/-- Structural invariant of the ring buffer. -/
def QInv (q : SegQ) : Prop :=
  q.head < 5 ∧ q.count ≤ 5 ∧ q.tail = (q.head + q.count) % 5

/-- The queued segments, oldest first. -/
def qList (q : SegQ) : List Nat :=
  (List.range q.count).map (fun i => q.items ((q.head + i) % 5))

theorem queue_init_inv : QInv queue_init := by
  refine ⟨by decide, by decide, by decide⟩

theorem qList_length (q : SegQ) : (qList q).length = q.count := by
  simp [qList]

theorem queue_push_inv (q : SegQ) (x : Nat) (h : QInv q) : QInv (queue_push q x) := by
  obtain ⟨hh, hc, ht⟩ := h
  unfold queue_push QInv
  by_cases hfull : q.count = 5
  · rw [if_pos hfull]
    dsimp only
    refine ⟨by omega, by omega, by omega⟩
  · rw [if_neg hfull]
    dsimp only
    refine ⟨by omega, by omega, by omega⟩

theorem queue_push_qList (q : SegQ) (x : Nat) (h : QInv q) :
    qList (queue_push q x)
      = (if q.count = 5 then (qList q).drop 1 else qList q) ++ [x] := by
  obtain ⟨hh, hc, ht⟩ := h
  by_cases hfull : q.count = 5
  · rw [if_pos hfull]
    unfold queue_push qList
    rw [if_pos hfull]
    dsimp only
    apply List.ext_getElem
    · simp [hfull]
    · intro i hi1 hi2
      simp only [List.length_map, List.length_range] at hi1
      simp only [List.getElem_map, List.getElem_range]
      by_cases hlt : i < 4
      · rw [List.getElem_append_left (by simp [hfull]; omega)]
        rw [List.getElem_drop]
        simp only [List.getElem_map, List.getElem_range]
        have hne : ((q.head + 1) % 5 + i) % 5 ≠ q.tail := by omega
        rw [if_neg hne]
        congr 1
        omega
      · have hi : i = 4 := by omega
        subst hi
        rw [List.getElem_append_right (by simp [hfull])]
        have heq : ((q.head + 1) % 5 + 4) % 5 = q.tail := by omega
        rw [if_pos heq]
        simp [hfull]
  · rw [if_neg hfull]
    unfold queue_push qList
    rw [if_neg hfull]
    dsimp only
    apply List.ext_getElem
    · simp
    · intro i hi1 hi2
      simp only [List.length_map, List.length_range] at hi1
      simp only [List.getElem_map, List.getElem_range]
      by_cases hlt : i < q.count
      · rw [List.getElem_append_left (by simp; omega)]
        simp only [List.getElem_map, List.getElem_range]
        have hne : (q.head + i) % 5 ≠ q.tail := by omega
        rw [if_neg hne]
      · have hi : i = q.count := by omega
        subst hi
        rw [List.getElem_append_right (by simp)]
        have heq : (q.head + q.count) % 5 = q.tail := by omega
        rw [if_pos heq]
        simp

theorem queue_pop_none (q : SegQ) (h : q.count = 0) : queue_pop q = none := by
  unfold queue_pop
  rw [if_pos h]

theorem queue_pop_some (q : SegQ) (h : QInv q) (hc : q.count ≠ 0) :
    ∃ q', queue_pop q = some (q.items q.head, q')
      ∧ qList q = q.items q.head :: qList q'
      ∧ QInv q' ∧ q'.count = q.count - 1 := by
  obtain ⟨hh, hcle, ht⟩ := h
  refine ⟨_, by unfold queue_pop; rw [if_neg hc], ?_, ⟨by dsimp only; omega,
    by dsimp only; omega, by dsimp only; omega⟩, rfl⟩
  unfold qList
  dsimp only
  apply List.ext_getElem
  · simp only [List.length_map, List.length_range, List.length_cons]
    omega
  · intro i hi1 hi2
    simp only [List.length_map, List.length_range] at hi1
    cases i with
    | zero =>
      simp only [List.getElem_map, List.getElem_range, List.getElem_cons_zero]
      congr 1
      omega
    | succ i =>
      simp only [List.getElem_map, List.getElem_range, List.getElem_cons_succ]
      congr 1
      omega

/-- Fold a sequence of pushes. -/
def pushAll (q : SegQ) (xs : List Nat) : SegQ := xs.foldl queue_push q

/-- Pop repeatedly until the queue reports empty, collecting the
returned segments in order. -/
def popAllGo : Nat → SegQ → List Nat
  | 0, _ => []
  | n + 1, q =>
    match queue_pop q with
    | none => []
    | some (a, q') => a :: popAllGo n q'

def popAll (q : SegQ) : List Nat := popAllGo q.count q

theorem popAllGo_eq_qList (n : Nat) :
    ∀ q, QInv q → q.count = n → popAllGo n q = qList q := by
  induction n with
  | zero =>
    intro q h hc
    unfold popAllGo qList
    rw [hc]
    rfl
  | succ n ih =>
    intro q h hc
    obtain ⟨q', hpop, hlist, hinv, hcount⟩ := queue_pop_some q h (by omega)
    unfold popAllGo
    rw [hpop]
    dsimp only
    rw [hlist]
    congr 1
    exact ih q' hinv (by omega)

theorem popAll_eq_qList (q : SegQ) (h : QInv q) : popAll q = qList q :=
  popAllGo_eq_qList q.count q h rfl

theorem pushAll_spec (q : SegQ) (xs : List Nat) (h : QInv q) :
    QInv (pushAll q xs)
      ∧ qList (pushAll q xs) = (qList q ++ xs).drop ((qList q ++ xs).length - 5) := by
  induction xs using List.reverseRecOn generalizing q with
  | nil =>
    refine ⟨h, ?_⟩
    unfold pushAll
    simp only [List.foldl_nil, List.append_nil]
    have h0 : (qList q).length - 5 = 0 := by
      rw [qList_length]
      have := h.2.1
      omega
    rw [h0, List.drop_zero]
  | append_singleton xs x ih =>
    obtain ⟨hinv, hlist⟩ := ih q h
    have hpush : pushAll q (xs ++ [x]) = queue_push (pushAll q xs) x := by
      unfold pushAll
      rw [List.foldl_append]
      rfl
    refine ⟨by rw [hpush]; exact queue_push_inv _ _ hinv, ?_⟩
    rw [hpush, queue_push_qList _ _ hinv, hlist]
    have hcount : (pushAll q xs).count
        = (qList q ++ xs).length - ((qList q ++ xs).length - 5) := by
      rw [← qList_length (pushAll q xs), hlist, List.length_drop]
    rw [List.length_append] at hcount
    by_cases hfull : (pushAll q xs).count = 5
    · rw [if_pos hfull, List.drop_drop, ← List.append_assoc]
      conv_rhs => rw [List.drop_append_of_le_length
        (by simp only [List.length_append, List.length_singleton]; omega)]
      congr 2
      simp only [List.length_append, List.length_singleton]
      omega
    · rw [if_neg hfull, ← List.append_assoc]
      conv_rhs => rw [List.drop_append_of_le_length
        (by simp only [List.length_append, List.length_singleton]; omega)]
      congr 2
      simp only [List.length_append, List.length_singleton]
      omega

/-- An operation on the queue: a push of a segment, or a pop attempt. -/
inductive QOp where
  | push : Nat → QOp
  | pop : QOp

/-- Run a sequence of queue operations from a state. -/
def runOps (q : SegQ) : List QOp → SegQ
  | [] => q
  | QOp.push x :: ops => runOps (queue_push q x) ops
  | QOp.pop :: ops =>
    match queue_pop q with
    | none => runOps q ops
    | some (_, q') => runOps q' ops

theorem runOps_inv (q : SegQ) (ops : List QOp) (h : QInv q) : QInv (runOps q ops) := by
  induction ops generalizing q with
  | nil => exact h
  | cons op ops ih =>
    cases op with
    | push x => exact ih _ (queue_push_inv q x h)
    | pop =>
      unfold runOps
      cases hc : q.count with
      | zero => rw [queue_pop_none q hc]; exact ih q h
      | succ n =>
        obtain ⟨q', hpop, _, hinv, _⟩ := queue_pop_some q h (by omega)
        rw [hpop]
        exact ih q' hinv

/-! ### Layout lookup (`typer.c`, `lookup_char`)

The compiled xkb keymap is abstracted by its query functions: the key
range, the number of groups per key, the number of shift levels per
(key, group), the keysym list of each (key, group, level), and the
modifier masks of each level.  Keysyms are numbers; `0` is
`XKB_KEY_NoSymbol`. -/

/-- Abstract compiled keymap, mirroring the xkbcommon query interface
used by `lookup_char` and `type_codepoint`. -/
structure Keymap where
  minKc : Nat
  maxKc : Nat
  numLayouts : Nat → Nat
  numLevels : Nat → Nat → Nat
  symsAt : Nat → Nat → Nat → List Nat
  modsAt : Nat → Nat → Nat → List Nat
  modIndex : String → Option Nat

/-- Model of xkbcommon's `xkb_utf32_to_keysym`: printable Latin-1
codepoints map to themselves, a handful of control characters map into
the `0xff00` function-key page, and all other valid codepoints map to
`0x01000000 + codepoint`; `0` (`NoSymbol`) means unmappable. -/
def utf32_to_keysym (cp : Nat) : Nat :=
  if 0x20 ≤ cp ∧ cp ≤ 0x7e then cp
  else if 0xa0 ≤ cp ∧ cp ≤ 0xff then cp
  else if (8 ≤ cp ∧ cp ≤ 13) ∨ cp = 0x1b then 0xff00 + cp
  else if cp = 0x7f then 0xffff
  else if 0x100 ≤ cp ∧ cp ≤ 0x10ffff ∧ ¬(0xd800 ≤ cp ∧ cp ≤ 0xdfff) then 0x1000000 + cp
  else 0

/-- Model of xkbcommon's `xkb_keysym_to_utf32`, the inverse direction. -/
def keysym_to_utf32 (ks : Nat) : Nat :=
  if (0x20 ≤ ks ∧ ks ≤ 0x7e) ∨ (0xa0 ≤ ks ∧ ks ≤ 0xff) then ks
  else if (0xff08 ≤ ks ∧ ks ≤ 0xff0d) ∨ ks = 0xff1b then ks - 0xff00
  else if ks = 0xffff then 0x7f
  else if 0x1000100 ≤ ks ∧ ks ≤ 0x110ffff then ks - 0x1000000
  else 0

theorem keysym_roundtrip (cp : Nat) (h : utf32_to_keysym cp ≠ 0) :
    keysym_to_utf32 (utf32_to_keysym cp) = cp := by
  unfold utf32_to_keysym at h ⊢
  unfold keysym_to_utf32
  split_ifs at h ⊢ <;> omega

/-- The scanned key range `min_kc .. max_kc` of the keymap. -/
def keyList (km : Keymap) : List Nat := List.range' km.minKc (km.maxKc + 1 - km.minKc)

/-- The (group, level) pairs of one key, in scan order (groups outer,
levels inner). -/
def glPairs (km : Keymap) (kc : Nat) : List (Nat × Nat) :=
  (List.range (km.numLayouts kc)).flatMap
    (fun g => (List.range (km.numLevels kc g)).map (fun l => (g, l)))

/-- Inner loops of `lookup_char` over one key: on a match in group 0
return immediately (`Sum.inl`); on a match in another group overwrite
the running result and continue. -/
def scanGL (km : Keymap) (target : Nat) (kc : Nat) :
    List (Nat × Nat) → Option (Nat × Nat × Nat) → Sum (Nat × Nat × Nat) (Option (Nat × Nat × Nat))
  | [], acc => Sum.inr acc
  | (g, l) :: rest, acc =>
    if km.symsAt kc g l = [target] then
      if g = 0 then Sum.inl (kc, g, l)
      else scanGL km target kc rest (some (kc, g, l))
    else scanGL km target kc rest acc

/-- Outer loop of `lookup_char` over the key range. -/
def scanKeys (km : Keymap) (target : Nat) :
    List Nat → Option (Nat × Nat × Nat) → Option (Nat × Nat × Nat)
  | [], acc => acc
  | kc :: rest, acc =>
    match scanGL km target kc (glPairs km kc) acc with
    | Sum.inl t => some t
    | Sum.inr acc' => scanKeys km target rest acc'

/-- `lookup_char`: resolve a codepoint to the (key, group, level) triple
the scan settles on (the C function returns the key's evdev code
`kc - 8` and the level's first modifier mask, both functions of this
triple).  `none` when the codepoint has no keysym or no key produces
it. -/
def lookup_char (km : Keymap) (cp : Nat) : Option (Nat × Nat × Nat) :=
  let target := utf32_to_keysym cp
  if target = 0 then none
  else scanKeys km target (keyList km) none

/-- All (key, group, level) triples in scan order. -/
def tripleList (km : Keymap) : List (Nat × Nat × Nat) :=
  (keyList km).flatMap (fun kc => (glPairs km kc).map (fun gl => (kc, gl.1, gl.2)))

/-- The primary-group (group 0) matches of `target`, in scan order. -/
def primList (km : Keymap) (target : Nat) : List (Nat × Nat × Nat) :=
  (tripleList km).filter (fun t => decide (km.symsAt t.1 t.2.1 t.2.2 = [target]) && decide (t.2.1 = 0))

/-- A triple the scan may report: its symbol list is exactly the
target. -/
def GoodMatch (km : Keymap) (target : Nat) (t : Nat × Nat × Nat) : Prop :=
  km.symsAt t.1 t.2.1 t.2.2 = [target]

theorem scanGL_inl (km : Keymap) (target kc : Nat) (ps : List (Nat × Nat))
    (acc : Option (Nat × Nat × Nat)) (t : Nat × Nat × Nat)
    (h : scanGL km target kc ps acc = Sum.inl t) :
    t.1 = kc ∧ (t.2.1, t.2.2) ∈ ps ∧ GoodMatch km target t ∧ t.2.1 = 0 := by
  induction ps generalizing acc with
  | nil => simp [scanGL] at h
  | cons gl rest ih =>
    obtain ⟨g, l⟩ := gl
    unfold scanGL at h
    by_cases hm : km.symsAt kc g l = [target]
    · rw [if_pos hm] at h
      by_cases hg : g = 0
      · rw [if_pos hg] at h
        injection h with h
        subst h
        exact ⟨rfl, List.mem_cons_self _ _, hm, hg⟩
      · rw [if_neg hg] at h
        obtain ⟨h1, h2, h3, h4⟩ := ih _ h
        exact ⟨h1, List.mem_cons_of_mem _ h2, h3, h4⟩
    · rw [if_neg hm] at h
      obtain ⟨h1, h2, h3, h4⟩ := ih _ h
      exact ⟨h1, List.mem_cons_of_mem _ h2, h3, h4⟩

theorem scanGL_inr (km : Keymap) (target kc : Nat) (ps : List (Nat × Nat))
    (acc acc' : Option (Nat × Nat × Nat))
    (h : scanGL km target kc ps acc = Sum.inr acc') :
    acc' = acc ∨ ∃ g l, acc' = some (kc, g, l) ∧ (g, l) ∈ ps
      ∧ km.symsAt kc g l = [target] ∧ g ≠ 0 := by
  induction ps generalizing acc with
  | nil =>
    simp only [scanGL] at h
    left
    injection h with h
    exact h.symm
  | cons gl rest ih =>
    obtain ⟨g, l⟩ := gl
    unfold scanGL at h
    by_cases hm : km.symsAt kc g l = [target]
    · rw [if_pos hm] at h
      by_cases hg : g = 0
      · rw [if_pos hg] at h
        exact absurd h (by simp)
      · rw [if_neg hg] at h
        rcases ih _ h with heq | ⟨g', l', h1, h2, h3, h4⟩
        · right
          exact ⟨g, l, heq, List.mem_cons_self _ _, hm, hg⟩
        · right
          exact ⟨g', l', h1, List.mem_cons_of_mem _ h2, h3, h4⟩
    · rw [if_neg hm] at h
      rcases ih _ h with heq | ⟨g', l', h1, h2, h3, h4⟩
      · left
        exact heq
      · right
        exact ⟨g', l', h1, List.mem_cons_of_mem _ h2, h3, h4⟩

theorem scanGL_some_stays (km : Keymap) (target kc : Nat) (ps : List (Nat × Nat))
    (acc acc' : Option (Nat × Nat × Nat)) (hacc : acc ≠ none)
    (h : scanGL km target kc ps acc = Sum.inr acc') : acc' ≠ none := by
  induction ps generalizing acc with
  | nil =>
    simp only [scanGL] at h
    injection h with h
    rw [← h]
    exact hacc
  | cons gl rest ih =>
    obtain ⟨g, l⟩ := gl
    unfold scanGL at h
    by_cases hm : km.symsAt kc g l = [target]
    · rw [if_pos hm] at h
      by_cases hg : g = 0
      · rw [if_pos hg] at h
        exact absurd h (by simp)
      · rw [if_neg hg] at h
        exact ih _ (by simp) h
    · rw [if_neg hm] at h
      exact ih _ hacc h

theorem scanGL_progress (km : Keymap) (target kc : Nat) (ps : List (Nat × Nat))
    (acc acc' : Option (Nat × Nat × Nat))
    (hmatch : ∃ gl ∈ ps, km.symsAt kc gl.1 gl.2 = [target])
    (h : scanGL km target kc ps acc = Sum.inr acc') : acc' ≠ none := by
  induction ps generalizing acc with
  | nil => simp at hmatch
  | cons gl rest ih =>
    obtain ⟨g, l⟩ := gl
    unfold scanGL at h
    by_cases hm : km.symsAt kc g l = [target]
    · rw [if_pos hm] at h
      by_cases hg : g = 0
      · rw [if_pos hg] at h
        exact absurd h (by simp)
      · rw [if_neg hg] at h
        exact scanGL_some_stays km target kc rest _ _ (by simp) h
    · rw [if_neg hm] at h
      rcases hmatch with ⟨gl', hgl', hm'⟩
      rcases List.mem_cons.mp hgl' with heq | hmem
      · refine absurd ?_ hm
        rw [heq] at hm'
        exact hm'
      · exact ih _ ⟨gl', hmem, hm'⟩ h

/-- The group-0 filter used to characterise the early return. -/
def primFilter (km : Keymap) (target kc : Nat) (gl : Nat × Nat) : Bool :=
  decide (km.symsAt kc gl.1 gl.2 = [target]) && decide (gl.1 = 0)

theorem scanGL_prim_first (km : Keymap) (target kc : Nat) (ps : List (Nat × Nat))
    (acc : Option (Nat × Nat × Nat)) (gl : Nat × Nat)
    (h : (ps.filter (primFilter km target kc)).head? = some gl) :
    scanGL km target kc ps acc = Sum.inl (kc, gl.1, gl.2) := by
  induction ps generalizing acc with
  | nil => simp [List.filter] at h
  | cons gl0 rest ih =>
    obtain ⟨g, l⟩ := gl0
    by_cases hp : primFilter km target kc (g, l)
    · rw [List.filter_cons_of_pos hp, List.head?_cons, Option.some_inj] at h
      unfold primFilter at hp
      simp only [Bool.and_eq_true, decide_eq_true_eq] at hp
      unfold scanGL
      rw [if_pos hp.1, if_pos hp.2, ← h]
    · rw [List.filter_cons_of_neg hp] at h
      unfold primFilter at hp
      simp only [Bool.and_eq_true, decide_eq_true_eq, not_and] at hp
      unfold scanGL
      by_cases hm : km.symsAt kc g l = [target]
      · rw [if_pos hm, if_neg (hp hm)]
        exact ih _ h
      · rw [if_neg hm]
        exact ih _ h

theorem scanGL_noprim (km : Keymap) (target kc : Nat) (ps : List (Nat × Nat))
    (acc : Option (Nat × Nat × Nat))
    (h : ps.filter (primFilter km target kc) = []) :
    ∃ acc', scanGL km target kc ps acc = Sum.inr acc' := by
  induction ps generalizing acc with
  | nil => exact ⟨acc, rfl⟩
  | cons gl rest ih =>
    obtain ⟨g, l⟩ := gl
    by_cases hp : primFilter km target kc (g, l)
    · rw [List.filter_cons_of_pos hp] at h
      simp at h
    · rw [List.filter_cons_of_neg hp] at h
      unfold primFilter at hp
      simp only [Bool.and_eq_true, decide_eq_true_eq, not_and] at hp
      unfold scanGL
      by_cases hm : km.symsAt kc g l = [target]
      · rw [if_pos hm, if_neg (hp hm)]
        exact ih _ h
      · rw [if_neg hm]
        exact ih _ h

theorem perKey_filter (km : Keymap) (target kc : Nat) :
    ((glPairs km kc).map (fun gl => (kc, gl.1, gl.2))).filter
      (fun t => decide (km.symsAt t.1 t.2.1 t.2.2 = [target]) && decide (t.2.1 = 0))
    = ((glPairs km kc).filter (primFilter km target kc)).map (fun gl => (kc, gl.1, gl.2)) := by
  rw [List.filter_map]
  rfl

theorem scanKeys_sound (km : Keymap) (target : Nat) (kcs : List Nat)
    (acc : Option (Nat × Nat × Nat)) (t : Nat × Nat × Nat)
    (hacc : ∀ t0, acc = some t0 → GoodMatch km target t0)
    (h : scanKeys km target kcs acc = some t) : GoodMatch km target t := by
  induction kcs generalizing acc with
  | nil => exact hacc t h
  | cons kc rest ih =>
    unfold scanKeys at h
    cases hscan : scanGL km target kc (glPairs km kc) acc with
    | inl t' =>
      rw [hscan] at h
      injection h with h
      subst h
      exact (scanGL_inl km target kc _ acc t' hscan).2.2.1
    | inr acc' =>
      rw [hscan] at h
      refine ih acc' ?_ h
      intro t0 ht0
      rcases scanGL_inr km target kc _ acc acc' hscan with heq | ⟨g, l, h1, _, h3, _⟩
      · exact hacc t0 (by rw [← heq]; exact ht0)
      · rw [h1] at ht0
        injection ht0 with ht0
        rw [← ht0]
        exact h3

theorem scanKeys_some_stays (km : Keymap) (target : Nat) (kcs : List Nat)
    (acc : Option (Nat × Nat × Nat)) (hacc : acc ≠ none) :
    scanKeys km target kcs acc ≠ none := by
  induction kcs generalizing acc with
  | nil => exact hacc
  | cons kc rest ih =>
    unfold scanKeys
    cases hscan : scanGL km target kc (glPairs km kc) acc with
    | inl t' => simp
    | inr acc' => exact ih acc' (scanGL_some_stays km target kc _ acc acc' hacc hscan)

theorem scanKeys_progress (km : Keymap) (target : Nat) (kcs : List Nat)
    (acc : Option (Nat × Nat × Nat))
    (hex : ∃ kc ∈ kcs, ∃ gl ∈ glPairs km kc, km.symsAt kc gl.1 gl.2 = [target]) :
    scanKeys km target kcs acc ≠ none := by
  induction kcs generalizing acc with
  | nil => simp at hex
  | cons kc rest ih =>
    unfold scanKeys
    cases hscan : scanGL km target kc (glPairs km kc) acc with
    | inl t' => simp
    | inr acc' =>
      obtain ⟨kc', hkc', hgl⟩ := hex
      rcases List.mem_cons.mp hkc' with heq | hmem
      · subst heq
        exact scanKeys_some_stays km target rest acc'
          (scanGL_progress km target kc' _ acc acc' hgl hscan)
      · exact ih acc' ⟨kc', hmem, hgl⟩

/-- Primary-group matches over a partial key list, in scan order. -/
def primOver (km : Keymap) (target : Nat) (kcs : List Nat) : List (Nat × Nat × Nat) :=
  (kcs.flatMap (fun kc => (glPairs km kc).map (fun gl => (kc, gl.1, gl.2)))).filter
    (fun t => decide (km.symsAt t.1 t.2.1 t.2.2 = [target]) && decide (t.2.1 = 0))

theorem primList_eq_primOver (km : Keymap) (target : Nat) :
    primList km target = primOver km target (keyList km) := rfl

theorem scanKeys_prim (km : Keymap) (target : Nat) (kcs : List Nat)
    (acc : Option (Nat × Nat × Nat)) (t : Nat × Nat × Nat)
    (h : (primOver km target kcs).head? = some t) :
    scanKeys km target kcs acc = some t := by
  induction kcs generalizing acc with
  | nil => simp [primOver] at h
  | cons kc rest ih =>
    unfold primOver at h
    rw [List.flatMap_cons, List.filter_append, perKey_filter] at h
    cases hkf : (glPairs km kc).filter (primFilter km target kc) with
    | nil =>
      rw [hkf, List.map_nil, List.nil_append] at h
      unfold scanKeys
      obtain ⟨acc', hacc'⟩ := scanGL_noprim km target kc (glPairs km kc) acc hkf
      rw [hacc']
      exact ih acc' h
    | cons gl rest' =>
      rw [hkf, List.map_cons, List.cons_append, List.head?_cons, Option.some_inj] at h
      unfold scanKeys
      rw [scanGL_prim_first km target kc (glPairs km kc) acc gl (by rw [hkf]; rfl)]
      rw [h]

theorem scanKeys_noprim (km : Keymap) (target : Nat) (kcs : List Nat)
    (acc : Option (Nat × Nat × Nat)) (t : Nat × Nat × Nat)
    (hnp : primOver km target kcs = [])
    (hacc : ∀ t0, acc = some t0 → GoodMatch km target t0 ∧ t0.2.1 ≠ 0)
    (h : scanKeys km target kcs acc = some t) :
    GoodMatch km target t ∧ t.2.1 ≠ 0 := by
  induction kcs generalizing acc with
  | nil => exact hacc t h
  | cons kc rest ih =>
    unfold primOver at hnp
    rw [List.flatMap_cons, List.filter_append, perKey_filter,
      List.append_eq_nil] at hnp
    obtain ⟨hnp1, hnp2⟩ := hnp
    have hkf : (glPairs km kc).filter (primFilter km target kc) = [] :=
      List.map_eq_nil_iff.mp hnp1
    unfold scanKeys at h
    obtain ⟨acc', hacc'⟩ := scanGL_noprim km target kc (glPairs km kc) acc hkf
    rw [hacc'] at h
    refine ih acc' hnp2 ?_ h
    intro t0 ht0
    rcases scanGL_inr km target kc _ acc acc' hacc' with heq | ⟨g, l, h1, h2, h3, h4⟩
    · exact hacc t0 (by rw [← heq]; exact ht0)
    · rw [h1] at ht0
      injection ht0 with ht0
      rw [← ht0]
      exact ⟨h3, h4⟩

theorem lookup_char_good (km : Keymap) (cp : Nat) (t : Nat × Nat × Nat)
    (h : lookup_char km cp = some t) :
    km.symsAt t.1 t.2.1 t.2.2 = [utf32_to_keysym cp] := by
  unfold lookup_char at h
  by_cases hsym : utf32_to_keysym cp = 0
  · rw [if_pos hsym] at h
    exact absurd h (by simp)
  · rw [if_neg hsym] at h
    exact scanKeys_sound km _ (keyList km) none t (by intro t0 ht0; simp at ht0) h

theorem lookup_char_progress (km : Keymap) (cp : Nat)
    (hsym : utf32_to_keysym cp ≠ 0)
    (hex : ∃ kc ∈ keyList km, ∃ gl ∈ glPairs km kc,
      km.symsAt kc gl.1 gl.2 = [utf32_to_keysym cp]) :
    lookup_char km cp ≠ none := by
  unfold lookup_char
  rw [if_neg hsym]
  exact scanKeys_progress km _ (keyList km) none hex

theorem lookup_char_prim (km : Keymap) (cp : Nat) (t : Nat × Nat × Nat)
    (hsym : utf32_to_keysym cp ≠ 0)
    (h : (primList km (utf32_to_keysym cp)).head? = some t) :
    lookup_char km cp = some t := by
  unfold lookup_char
  rw [if_neg hsym]
  exact scanKeys_prim km _ (keyList km) none t h

theorem lookup_char_nonprim (km : Keymap) (cp : Nat) (t : Nat × Nat × Nat)
    (hnp : primList km (utf32_to_keysym cp) = [])
    (h : lookup_char km cp = some t) :
    km.symsAt t.1 t.2.1 t.2.2 = [utf32_to_keysym cp] ∧ t.2.1 ≠ 0 := by
  unfold lookup_char at h
  by_cases hsym : utf32_to_keysym cp = 0
  · rw [if_pos hsym] at h
    exact absurd h (by simp)
  · rw [if_neg hsym] at h
    exact scanKeys_noprim km _ (keyList km) none t hnp
      (by intro t0 ht0; simp at ht0) h

/-! ### Key-event emission (`typer.c`: `emit`, `key_tap`, `type_codepoint`,
`typer_press`, `typer_type`)

An emitted event is either a key transition (`EV_KEY` with value 1/0) or
a `SYN_REPORT`. -/

/-- One `emit` call: a key press/release, or a SYN report. -/
inductive UEvent where
  | key : Nat → Bool → UEvent
  | syn : UEvent
deriving DecidableEq

/-- `key_tap`: key down, SYN, key up, SYN. -/
def key_tap (code : Nat) : List UEvent :=
  [UEvent.key code true, UEvent.syn, UEvent.key code false, UEvent.syn]

/-- `mod_map`: xkb modifier names with their evdev keys, in the fixed
priority order Shift (42), Control (29), Alt/Mod1 (56), Logo/Mod4 (125),
AltGr/Mod5 (100). -/
def mod_map : List (String × Nat) :=
  [("Shift", 42), ("Control", 29), ("Mod1", 56), ("Mod4", 125), ("Mod5", 100)]

/-- The modifier-resolution loop of `type_codepoint`: walk `mod_map` in
order, skip names the keymap does not know, keep evdev keys whose mask
bit is set; the loop also stops adding past 8 entries. -/
def resolveModKeys (km : Keymap) (mask : Nat) : List Nat :=
  mod_map.foldl
    (fun acc m =>
      if acc.length < 8 then
        match km.modIndex m.1 with
        | none => acc
        | some idx => if mask.testBit idx then acc ++ [m.2] else acc
      else acc)
    []

/-- The same resolution, written as the specification describes it: the
fixed-priority filter of `mod_map`. -/
def modKeysSpec (km : Keymap) (mask : Nat) : List Nat :=
  mod_map.filterMap
    (fun m =>
      match km.modIndex m.1 with
      | none => none
      | some idx => if mask.testBit idx then some m.2 else none)

theorem resolveModKeys_foldl (km : Keymap) (mask : Nat) (ms : List (String × Nat))
    (acc : List Nat) (h : acc.length + ms.length ≤ 8) :
    ms.foldl
      (fun acc m =>
        if acc.length < 8 then
          match km.modIndex m.1 with
          | none => acc
          | some idx => if mask.testBit idx then acc ++ [m.2] else acc
        else acc)
      acc
    = acc ++ ms.filterMap
        (fun m =>
          match km.modIndex m.1 with
          | none => none
          | some idx => if mask.testBit idx then some m.2 else none) := by
  induction ms generalizing acc with
  | nil => simp
  | cons m rest ih =>
    rw [List.foldl_cons, List.filterMap_cons]
    simp only [List.length_cons] at h
    rw [if_pos (by omega)]
    cases hidx : km.modIndex m.1 with
    | none =>
      dsimp only
      rw [ih acc (by omega)]
    | some idx =>
      dsimp only
      by_cases hbit : mask.testBit idx
      · rw [if_pos hbit, if_pos hbit, ih (acc ++ [m.2]) (by simp; omega)]
        rw [List.append_assoc]
        rfl
      · rw [if_neg hbit, if_neg hbit, ih acc (by omega)]

theorem resolveModKeys_eq_spec (km : Keymap) (mask : Nat) :
    resolveModKeys km mask = modKeysSpec km mask := by
  unfold resolveModKeys modKeysSpec
  rw [resolveModKeys_foldl km mask mod_map [] (by decide)]
  rfl

/-- The modifier press loop: for each resolved key, key down + SYN. -/
def pressLoop (ks : List Nat) : List UEvent :=
  ks.foldl (fun acc k => acc ++ [UEvent.key k true, UEvent.syn]) []

/-- The modifier release loop, iterating indices from `nmod - 1` down to
0: key up + SYN in reverse resolution order. -/
def releaseLoopGo (ks : List Nat) : Nat → List UEvent
  | 0 => []
  | i + 1 => [UEvent.key (ks.getD i 0) false, UEvent.syn] ++ releaseLoopGo ks i

def releaseLoop (ks : List Nat) : List UEvent := releaseLoopGo ks ks.length

theorem pressLoop_foldl (ks : List Nat) (acc : List UEvent) :
    ks.foldl (fun acc k => acc ++ [UEvent.key k true, UEvent.syn]) acc
      = acc ++ ks.flatMap (fun k => [UEvent.key k true, UEvent.syn]) := by
  induction ks generalizing acc with
  | nil => simp
  | cons k rest ih =>
    rw [List.foldl_cons, ih, List.flatMap_cons, List.append_assoc]

theorem pressLoop_eq (ks : List Nat) :
    pressLoop ks = ks.flatMap (fun k => [UEvent.key k true, UEvent.syn]) := by
  unfold pressLoop
  rw [pressLoop_foldl]
  rfl

theorem releaseLoopGo_append (ks : List Nat) (a : Nat) (n : Nat) (h : n ≤ ks.length) :
    releaseLoopGo (ks ++ [a]) n = releaseLoopGo ks n := by
  induction n with
  | zero => rfl
  | succ n ih =>
    unfold releaseLoopGo
    rw [List.getD_append ks [a] 0 n (by omega), ih (by omega)]

theorem releaseLoop_eq (ks : List Nat) :
    releaseLoop ks = ks.reverse.flatMap (fun k => [UEvent.key k false, UEvent.syn]) := by
  induction ks using List.reverseRecOn with
  | nil => rfl
  | append_singleton ks a ih =>
    unfold releaseLoop
    rw [List.length_append, List.length_singleton]
    unfold releaseLoopGo
    have hget : (ks ++ [a]).getD ks.length 0 = a := by
      rw [List.getD_append_right ks [a] 0 ks.length (Nat.le_refl _)]
      simp [List.getD]
    rw [hget, releaseLoopGo_append ks a ks.length (Nat.le_refl _)]
    show _ ++ releaseLoop ks = _
    rw [ih, List.reverse_append]
    rfl

/-- `type_codepoint`: newline/carriage-return and tab map directly to
Enter (28) and Tab (15); an unmappable codepoint emits nothing;
otherwise press the resolved modifiers in `mod_map` order, tap the
resolved key (`kc - 8` converts the xkb keycode to evdev), and release
the modifiers in reverse order. -/
def type_codepoint (km : Keymap) (cp : Nat) : List UEvent :=
  if cp = 10 ∨ cp = 13 then key_tap 28
  else if cp = 9 then key_tap 15
  else
    match lookup_char km cp with
    | none => []
    | some (kc, g, l) =>
      pressLoop (resolveModKeys km ((km.modsAt kc g l).headD 0))
        ++ key_tap (kc - 8)
        ++ releaseLoop (resolveModKeys km ((km.modsAt kc g l).headD 0))

/-- `typer_press`: a key tap with an optional held Ctrl (29). -/
def typer_press (evdev_keycode : Nat) (with_ctrl : Bool) : List UEvent :=
  (if with_ctrl then [UEvent.key 29 true, UEvent.syn] else [])
    ++ key_tap evdev_keycode
    ++ (if with_ctrl then [UEvent.key 29 false, UEvent.syn] else [])

/-- The UTF-8 decoding loop of `typer_type`, with fuel for termination
(every iteration consumes at least one byte, so `l.length` fuel is
enough): one codepoint per 1-4 byte sequence, invalid lead bytes
skipped. -/
def decodeUtf8Go : Nat → List Nat → List Nat
  | 0, _ => []
  | _ + 1, [] => []
  | fuel + 1, b :: rest =>
    if b < 0x80 then b :: decodeUtf8Go fuel rest
    else if b &&& 0xE0 = 0xC0 then
      match rest with
      | b2 :: r2 => (((b &&& 0x1F) <<< 6) ||| (b2 &&& 0x3F)) :: decodeUtf8Go fuel r2
      | [] => []
    else if b &&& 0xF0 = 0xE0 then
      match rest with
      | b2 :: b3 :: r3 =>
        (((b &&& 0x0F) <<< 12) ||| ((b2 &&& 0x3F) <<< 6) ||| (b3 &&& 0x3F))
          :: decodeUtf8Go fuel r3
      | _ => []
    else if b &&& 0xF8 = 0xF0 then
      match rest with
      | b2 :: b3 :: b4 :: r4 =>
        (((b &&& 0x07) <<< 18) ||| ((b2 &&& 0x3F) <<< 12) ||| ((b3 &&& 0x3F) <<< 6)
          ||| (b4 &&& 0x3F)) :: decodeUtf8Go fuel r4
      | _ => []
    else decodeUtf8Go fuel rest

/-- The UTF-8 decoding of `typer_type`. -/
def decodeUtf8 (l : List Nat) : List Nat := decodeUtf8Go l.length l

/-- `typer_type`: decode the UTF-8 input and emit each codepoint's
events in order (the 2 ms inter-character delay carries no events). -/
def typer_type (km : Keymap) (text : List Nat) : List UEvent :=
  (decodeUtf8 text).flatMap (type_codepoint km)

theorem decodeUtf8Go_ascii (fuel : Nat) (l : List Nat) (hf : l.length ≤ fuel)
    (h : ∀ b ∈ l, b < 0x80) : decodeUtf8Go fuel l = l := by
  induction fuel generalizing l with
  | zero =>
    cases l with
    | nil => rfl
    | cons b rest => simp at hf
  | succ fuel ih =>
    cases l with
    | nil => rfl
    | cons b rest =>
      unfold decodeUtf8Go
      rw [if_pos (h b (List.mem_cons_self _ _))]
      rw [ih rest (by simp at hf; omega) (fun b hb => h b (List.mem_cons_of_mem _ hb))]

theorem decodeUtf8_ascii (l : List Nat) (h : ∀ b ∈ l, b < 0x80) :
    decodeUtf8 l = l := decodeUtf8Go_ascii l.length l (Nat.le_refl _) h

/-! ### X11/XTest variant (`part_001`: `type_text`)

The X11 display connection is abstracted by the two lookups `type_text`
performs: `XKeysymToKeycode` (0 meaning no keycode) and
`XkbKeycodeToKeysym` at a (group, shift-level). -/

/-- Abstract X11 keyboard mapping as queried by `type_text`. -/
structure XLayout where
  keycodeOf : Nat → Nat
  symAt : Nat → Nat → Nat → Nat
  shiftKc : Nat

/-- One `XTestFakeKeyEvent`: keycode and press flag. -/
inductive XEvent where
  | key : Nat → Bool → XEvent
deriving DecidableEq

/-- `type_text`: only printable ASCII bytes are typed; the keysym is the
byte itself; Shift is held exactly when the unshifted keysym of the
resolved keycode differs from the target. -/
def type_text (x : XLayout) (text : List Nat) : List XEvent :=
  text.flatMap (fun c =>
    if c < 0x20 ∨ 0x7e < c then []
    else if x.keycodeOf c = 0 then []
    else
      (if x.symAt (x.keycodeOf c) 0 0 ≠ c then [XEvent.key x.shiftKc true] else [])
        ++ [XEvent.key (x.keycodeOf c) true, XEvent.key (x.keycodeOf c) false]
        ++ (if x.symAt (x.keycodeOf c) 0 0 ≠ c then [XEvent.key x.shiftKc false] else []))

/-- Modelled from the spec: the "observable typed text" of the X11
variant — the character the display server produces for each synthetic
tap, namely the keysym of the resolved keycode at the shift level
`type_text` selects.  (The display server itself is outside the
sources; this observation function realises the spec's notion of
observable output.) -/
def x11_observed (x : XLayout) (text : List Nat) : List Nat :=
  text.filterMap (fun c =>
    if c < 0x20 ∨ 0x7e < c then none
    else if x.keycodeOf c = 0 then none
    else some (keysym_to_utf32
      (x.symAt (x.keycodeOf c) 0 (if x.symAt (x.keycodeOf c) 0 0 ≠ c then 1 else 0))))

/-- Modelled from the spec: the "observable typed text" of the uinput
variant — newline/carriage-return observe as a line break, tab as a tab,
and a resolved character observes as the keysym of the (key, group,
level) the lookup settled on (the compositor applies the same compiled
layout). -/
def uinput_observed (km : Keymap) (text : List Nat) : List Nat :=
  (decodeUtf8 text).filterMap (fun cp =>
    if cp = 10 ∨ cp = 13 then some 10
    else if cp = 9 then some 9
    else
      match lookup_char km cp with
      | none => none
      | some (kc, g, l) => some (keysym_to_utf32 ((km.symsAt kc g l).headD 0)))

theorem filterMap_id_of_mem (l : List Nat) (f : Nat → Option Nat)
    (h : ∀ a ∈ l, f a = some a) : l.filterMap f = l := by
  induction l with
  | nil => rfl
  | cons a rest ih =>
    rw [List.filterMap_cons, h a (List.mem_cons_self _ _)]
    rw [ih (fun b hb => h b (List.mem_cons_of_mem _ hb))]

/-! ### Concrete keymaps used to instantiate the universally quantified
theorems -/

/-- A small keymap: key 9 produces `a` (97) in the primary group, key 10
produces `b` (98) only in the secondary group. -/
def kmW : Keymap where
  minKc := 8
  maxKc := 10
  numLayouts := fun _ => 2
  numLevels := fun _ _ => 1
  symsAt := fun kc g l =>
    if kc = 9 ∧ g = 0 ∧ l = 0 then [97]
    else if kc = 10 ∧ g = 1 ∧ l = 0 then [98]
    else []
  modsAt := fun _ _ _ => []
  modIndex := fun n => if n = "Shift" then some 0 else none

/-- A small keymap with a shifted level: key 9 produces `a` (97) at
level 0 and `A` (65) at level 1, whose modifier mask is Shift (bit 0). -/
def kmW8 : Keymap where
  minKc := 8
  maxKc := 9
  numLayouts := fun _ => 1
  numLevels := fun _ _ => 2
  symsAt := fun kc g l =>
    if kc = 9 ∧ g = 0 ∧ l = 0 then [97]
    else if kc = 9 ∧ g = 0 ∧ l = 1 then [65]
    else []
  modsAt := fun _ _ l => if l = 1 then [1] else []
  modIndex := fun n => if n = "Shift" then some 0 else none

/-- A keymap whose key 9 produces `é` (U+00E9). -/
def kmE : Keymap where
  minKc := 8
  maxKc := 9
  numLayouts := fun _ => 1
  numLevels := fun _ _ => 1
  symsAt := fun kc g l => if kc = 9 ∧ g = 0 ∧ l = 0 then [0xE9] else []
  modsAt := fun _ _ _ => []
  modIndex := fun _ => none

/-- An X layout (its contents are irrelevant to non-ASCII input, which
`type_text` skips unconditionally). -/
def xE : XLayout where
  keycodeOf := fun _ => 0
  symAt := fun _ _ _ => 0
  shiftKc := 50

/-- An X layout typing lowercase ASCII letters unshifted on keycode
`c - 90`. -/
def xW : XLayout where
  keycodeOf := fun c => if 97 ≤ c ∧ c ≤ 122 then c - 90 else 0
  symAt := fun kc g l => if g = 0 ∧ l = 0 ∧ 7 ≤ kc ∧ kc ≤ 32 then kc + 90 else 0
  shiftKc := 50

/-! ### Claim theorems -/

/-- C1: for every recognition result passing the GarbageFilter, the
worker trims leading whitespace, trims trailing whitespace and sentence
punctuation, runs the command matcher on the trimmed text, strips
trailing spaces before a matched command, and injects the remaining
portion (when non-empty) with exactly one space appended, followed by
the matched command's key action; `"hello world."` yields `"hello world "`
and no command, `"cancel it"` yields no text and a Ctrl+C key press. -/
theorem c1_worker_postprocessing :
    (∀ r : List Nat, worker_step r = pipeline_spec r)
    ∧ worker_step (str "hello world.") = (some (str "hello world "), none)
    ∧ worker_step (str "cancel it") = (none, some cmdCancel)
    ∧ cmdCancel.keycode = 46 ∧ cmdCancel.ctrl = true
    ∧ typer_press 46 true
        = [UEvent.key 29 true, UEvent.syn] ++ key_tap 46
          ++ [UEvent.key 29 false, UEvent.syn] :=
  ⟨worker_step_eq_pipeline, by decide, by decide, by decide, by decide, by decide⟩

/-- C2: after any sequence of pushes and pops the count stays at most 5
(and is a `Nat`, hence at least 0); a push is total (never blocks or
fails), and on a full queue it first drops exactly the oldest queued
segment before appending the new one. -/
theorem c2_queue_invariant :
    ∀ (ops : List QOp) (x : Nat),
      QInv (runOps queue_init ops)
      ∧ (runOps queue_init ops).count ≤ 5
      ∧ qList (queue_push (runOps queue_init ops) x)
          = (if (runOps queue_init ops).count = 5
              then (qList (runOps queue_init ops)).drop 1
              else qList (runOps queue_init ops)) ++ [x] := by
  intro ops x
  have hinv := runOps_inv queue_init ops queue_init_inv
  exact ⟨hinv, hinv.2.1, queue_push_qList _ x hinv⟩

/-- C3: strict FIFO — pushing any sequence and then draining the queue
returns exactly the pushed segments in push order minus the evicted
oldest ones (all but the last 5), and the count never exceeds 5. -/
theorem c3_queue_fifo :
    ∀ xs : List Nat,
      popAll (pushAll queue_init xs) = xs.drop (xs.length - 5)
      ∧ (pushAll queue_init xs).count ≤ 5 := by
  intro xs
  obtain ⟨hinv, hlist⟩ := pushAll_spec queue_init xs queue_init_inv
  have hq : qList queue_init = [] := rfl
  rw [hq, List.nil_append] at hlist
  refine ⟨?_, hinv.2.1⟩
  rw [popAll_eq_qList _ hinv, hlist]

/-- C4 counterexample: the uinput variant's filter accepts the two-byte
UTF-8 text `é` (bytes C3 A9), which the claim's predicate (no character
alphanumeric, ≤ 2 distinct, length < 3) rejects. -/
theorem c4_counterexample :
    is_garbage_uinput [0xC3, 0xA9] = false ∧ garbage_claim [0xC3, 0xA9] = true := by
  decide

/-- C4 (amended): the X11 variant's filter rejects exactly as the claim
states; the uinput variant's filter rejects by the same rule with
"alphanumeric" extended to any byte ≥ 0xC0 (a UTF-8 lead byte); the
spec's four examples hold for both variants. -/
theorem c4_garbage_characterization :
    (∀ t : List Nat, is_garbage_x11 t = garbage_claim t)
    ∧ (∀ t : List Nat, is_garbage_uinput t = garbage_claim_uinput t)
    ∧ is_garbage_uinput (str "") = true ∧ is_garbage_x11 (str "") = true
    ∧ is_garbage_uinput (str "...") = true ∧ is_garbage_x11 (str "...") = true
    ∧ is_garbage_uinput (str "ok") = false ∧ is_garbage_x11 (str "ok") = false
    ∧ is_garbage_uinput (str "xyz") = false ∧ is_garbage_x11 (str "xyz") = false :=
  ⟨garbage_x11_eq_claim, garbage_uinput_eq_claim, by decide, by decide, by decide,
    by decide, by decide, by decide, by decide, by decide⟩

/-- C5: the matcher returns exactly the command whose configured phrase
is the longest case-insensitive whole-word suffix of the text, with the
index where the phrase begins; `"please press enter"` matches Enter with
typed portion `"please"`, and `"press enter now"` matches nothing. -/
theorem c5_command_matcher :
    (∀ t : List Nat, match_trailing_command t = specLongestMatch t)
    ∧ match_trailing_command (str "please press enter") = some (cmdEnter, 7)
    ∧ rtrimBy ((str "please press enter").take 7) (fun c => c == 32) = str "please"
    ∧ match_trailing_command (str "press enter now") = none :=
  ⟨match_trailing_eq_longest, by decide, by decide, by decide⟩

/-- C6: every codepoint produced (as the single symbol of some
(key, group, level)) by the layout resolves to a triple whose symbol
list is exactly the target keysym, so re-deriving the symbol at that
exact triple and converting it back reproduces the codepoint. -/
theorem c6_injection_roundtrip (km : Keymap) (cp : Nat)
    (hsym : utf32_to_keysym cp ≠ 0)
    (hprod : ∃ kc g l, km.minKc ≤ kc ∧ kc ≤ km.maxKc ∧ g < km.numLayouts kc
      ∧ l < km.numLevels kc g ∧ km.symsAt kc g l = [utf32_to_keysym cp]) :
    ∃ kc g l, lookup_char km cp = some (kc, g, l)
      ∧ km.symsAt kc g l = [utf32_to_keysym cp]
      ∧ keysym_to_utf32 ((km.symsAt kc g l).headD 0) = cp := by
  obtain ⟨kc, g, l, h1, h2, h3, h4, h5⟩ := hprod
  have hex : ∃ kc' ∈ keyList km, ∃ gl ∈ glPairs km kc',
      km.symsAt kc' gl.1 gl.2 = [utf32_to_keysym cp] := by
    refine ⟨kc, ?_, (g, l), ?_, h5⟩
    · unfold keyList
      rw [List.mem_range'_1]
      omega
    · unfold glPairs
      rw [List.mem_flatMap]
      exact ⟨g, List.mem_range.mpr h3, List.mem_map.mpr ⟨l, List.mem_range.mpr h4, rfl⟩⟩
  have hne := lookup_char_progress km cp hsym hex
  cases hl : lookup_char km cp with
  | none => exact absurd hl hne
  | some t =>
    obtain ⟨kc', g', l'⟩ := t
    have hg := lookup_char_good km cp _ hl
    dsimp only at hg
    refine ⟨kc', g', l', rfl, hg, ?_⟩
    rw [hg]
    exact keysym_roundtrip cp hsym

/-- C6 witness: on the concrete keymap `kmW`, codepoint 97 (`a`) is
producible and round-trips. -/
theorem c6_witness :
    utf32_to_keysym 97 ≠ 0
    ∧ ∃ kc g l, lookup_char kmW 97 = some (kc, g, l)
        ∧ kmW.symsAt kc g l = [utf32_to_keysym 97]
        ∧ keysym_to_utf32 ((kmW.symsAt kc g l).headD 0) = 97 :=
  ⟨by decide, c6_injection_roundtrip kmW 97 (by decide)
    ⟨9, 0, 0, by decide, by decide, by decide, by decide, by decide⟩⟩

/-- C7: newline/carriage-return and tab bypass the lookup and key-tap
Enter (28) / Tab (15); a codepoint with no keysym, or with no matching
key, emits nothing; the scan returns the first primary-group (group 0)
match in scan order, and when no primary-group match exists the returned
match lies in a non-primary group. -/
theorem c7_codepoint_resolution :
    (∀ km : Keymap, type_codepoint km 10 = key_tap 28
      ∧ type_codepoint km 13 = key_tap 28 ∧ type_codepoint km 9 = key_tap 15)
    ∧ (∀ (km : Keymap) (cp : Nat), utf32_to_keysym cp = 0 → type_codepoint km cp = [])
    ∧ (∀ (km : Keymap) (cp : Nat), cp ≠ 9 → cp ≠ 10 → cp ≠ 13 →
        lookup_char km cp = none → type_codepoint km cp = [])
    ∧ (∀ (km : Keymap) (cp : Nat) (t : Nat × Nat × Nat), utf32_to_keysym cp ≠ 0 →
        (primList km (utf32_to_keysym cp)).head? = some t → lookup_char km cp = some t)
    ∧ (∀ (km : Keymap) (cp : Nat) (t : Nat × Nat × Nat), lookup_char km cp = some t →
        primList km (utf32_to_keysym cp) = [] →
        km.symsAt t.1 t.2.1 t.2.2 = [utf32_to_keysym cp] ∧ t.2.1 ≠ 0) := by
  refine ⟨?_, ?_, ?_, ?_, ?_⟩
  · intro km
    refine ⟨?_, ?_, ?_⟩ <;> rfl
  · intro km cp h
    have e9 : cp ≠ 9 := by intro he; subst he; revert h; decide
    have e10 : cp ≠ 10 := by intro he; subst he; revert h; decide
    have e13 : cp ≠ 13 := by intro he; subst he; revert h; decide
    unfold type_codepoint
    rw [if_neg (by simp [e10, e13]), if_neg e9]
    unfold lookup_char
    rw [if_pos h]
  · intro km cp e9 e10 e13 hl
    unfold type_codepoint
    rw [if_neg (by simp [e10, e13]), if_neg e9, hl]
  · intro km cp t hsym h
    exact lookup_char_prim km cp t hsym h
  · intro km cp t hl hnp
    exact lookup_char_nonprim km cp t hnp hl

/-- C7 witness: concrete instances of each part on `kmW` — control
characters, an unmappable surrogate, an unmatched codepoint, a
primary-group match for `a`, and a secondary-group-only match for `b`. -/
theorem c7_witness :
    type_codepoint kmW 10 = key_tap 28
    ∧ type_codepoint kmW 0xd800 = []
    ∧ type_codepoint kmW 0x2603 = []
    ∧ lookup_char kmW 97 = some (9, 0, 0)
    ∧ (kmW.symsAt 10 1 0 = [utf32_to_keysym 98] ∧ (10, (1 : Nat), (0 : Nat)).2.1 ≠ 0) := by
  obtain ⟨p1, p2, p3, p4, p5⟩ := c7_codepoint_resolution
  exact ⟨(p1 kmW).1, p2 kmW 0xd800 (by decide),
    p3 kmW 0x2603 (by decide) (by decide) (by decide) (by decide),
    p4 kmW 97 (9, 0, 0) (by decide) (by decide),
    p5 kmW 98 (10, 1, 0) (by decide) (by decide)⟩

/-- C8: for every resolved character the emitted sequence is the
resolved modifier keys pressed in the fixed `mod_map` priority order
(Shift, Control, Alt, Logo, AltGr), then key-down/key-up of the resolved
key, then the same modifiers released in reverse order. -/
theorem c8_emission (km : Keymap) (cp kc g l : Nat)
    (h9 : cp ≠ 9) (h10 : cp ≠ 10) (h13 : cp ≠ 13)
    (hl : lookup_char km cp = some (kc, g, l)) :
    type_codepoint km cp
      = (modKeysSpec km ((km.modsAt kc g l).headD 0)).flatMap
          (fun k => [UEvent.key k true, UEvent.syn])
        ++ key_tap (kc - 8)
        ++ ((modKeysSpec km ((km.modsAt kc g l).headD 0)).reverse).flatMap
          (fun k => [UEvent.key k false, UEvent.syn]) := by
  unfold type_codepoint
  rw [if_neg (by simp [h10, h13]), if_neg h9, hl]
  dsimp only
  rw [resolveModKeys_eq_spec, pressLoop_eq, releaseLoop_eq]

/-- C8 witness: typing `A` on `kmW8` presses Shift (42), taps the
resolved key, and releases Shift. -/
theorem c8_witness :
    lookup_char kmW8 65 = some (9, 0, 1)
    ∧ type_codepoint kmW8 65
        = [UEvent.key 42 true, UEvent.syn] ++ key_tap 1
          ++ [UEvent.key 42 false, UEvent.syn] := by
  refine ⟨by decide, ?_⟩
  rw [c8_emission kmW8 65 9 0 1 (by decide) (by decide) (by decide) (by decide)]
  decide

/-- C9 counterexample: on input `é` (UTF-8 bytes C3 A9) the uinput
variant types `é` on a layout that carries it, while the X11 variant
types nothing — the observable texts differ. -/
theorem c9_counterexample :
    uinput_observed kmE [0xC3, 0xA9] = [0xE9]
    ∧ x11_observed xE [0xC3, 0xA9] = []
    ∧ uinput_observed kmE [0xC3, 0xA9] ≠ x11_observed xE [0xC3, 0xA9] := by
  decide

/-- C9 (amended): the two injection variants produce identical
observable typed text on inputs of printable ASCII characters when both
layouts resolve every character of the input (the uinput lookup finds a
key, and the X key at the chosen shift level produces the character);
outside that common domain the kernel-device variant is authoritative. -/
theorem c9_ascii_equivalence (km : Keymap) (x : XLayout) (text : List Nat)
    (hascii : ∀ c ∈ text, 0x20 ≤ c ∧ c ≤ 0x7e)
    (hkm : ∀ c ∈ text, lookup_char km c ≠ none)
    (hx : ∀ c ∈ text, x.keycodeOf c ≠ 0
      ∧ keysym_to_utf32 (x.symAt (x.keycodeOf c) 0
          (if x.symAt (x.keycodeOf c) 0 0 ≠ c then 1 else 0)) = c) :
    uinput_observed km text = x11_observed x text
      ∧ uinput_observed km text = text := by
  have hu : uinput_observed km text = text := by
    unfold uinput_observed
    rw [decodeUtf8_ascii text (fun b hb => by have := hascii b hb; omega)]
    apply filterMap_id_of_mem
    intro c hc
    have hrange := hascii c hc
    rw [if_neg (by omega), if_neg (by omega)]
    cases hl : lookup_char km c with
    | none => exact absurd hl (hkm c hc)
    | some t =>
      obtain ⟨kc, g, l⟩ := t
      have hg := lookup_char_good km c _ hl
      dsimp only at hg
      have hsym : utf32_to_keysym c = c := by
        unfold utf32_to_keysym
        rw [if_pos (by omega)]
      dsimp only
      rw [hg, hsym]
      show some (keysym_to_utf32 c) = some c
      unfold keysym_to_utf32
      rw [if_pos (Or.inl (by omega))]
  have hxo : x11_observed x text = text := by
    unfold x11_observed
    apply filterMap_id_of_mem
    intro c hc
    have hrange := hascii c hc
    obtain ⟨hkc, hsym⟩ := hx c hc
    rw [if_neg (by omega), if_neg hkc, hsym]
  exact ⟨by rw [hu, hxo], hu⟩

/-- C9 witness: on `"ab"` with matching concrete layouts both variants
observably type `ab`. -/
theorem c9_witness :
    uinput_observed kmW (str "ab") = x11_observed xW (str "ab")
    ∧ uinput_observed kmW (str "ab") = str "ab" :=
  c9_ascii_equivalence kmW xW (str "ab") (by decide) (by decide) (by decide)

/-- C10: in the uinput variant every byte ≥ 0xC0 counts as alphanumeric,
so a trimmed text containing any such byte is never rejected; the X11
variant lacks the exemption and rejects e.g. the UTF-8 text `¿¿`
(bytes C2 BF C2 BF), which the uinput variant accepts. -/
theorem c10_utf8_exemption :
    (∀ t : List Nat, (∃ b ∈ trimmed t, 0xC0 ≤ b) → is_garbage_uinput t = false)
    ∧ is_garbage_x11 [0xC2, 0xBF, 0xC2, 0xBF] = true
    ∧ is_garbage_uinput [0xC2, 0xBF, 0xC2, 0xBF] = false := by
  refine ⟨?_, by decide, by decide⟩
  intro t ⟨b, hb, hb0⟩
  unfold is_garbage_uinput
  have hne : (trimmed t).isEmpty = false := by
    cases htr : trimmed t with
    | nil => rw [htr] at hb; exact absurd hb (List.not_mem_nil b)
    | cons a rest => rfl
  have hany : (trimmed t).any (fun c => isalnum c || decide (0xC0 ≤ c)) = true :=
    List.any_eq_true.mpr ⟨b, hb, by simp [hb0]⟩
  simp [hne, hany]

/-- C10 witness: the text `é` (bytes C3 A9) contains a lead byte and is
accepted by the uinput filter. -/
theorem c10_witness :
    (∃ b ∈ trimmed [0xC3, 0xA9], 0xC0 ≤ b)
    ∧ is_garbage_uinput [0xC3, 0xA9] = false :=
  ⟨by decide, c10_utf8_exemption.1 [0xC3, 0xA9] (by decide)⟩

end Dictate
